import Mathlib

/-!
Shallow embedding of the generalized Floyd-Warshall relaxation engine
(`src/floyd_warshall.rs`) and of its external collaborators (the directed
weighted graph abstraction and the result container), together with proofs
of the specified properties.

The engine itself (`FloydWarshall`, `find_paths`, `unique`, `dedup`) is
translated directly from `src/floyd_warshall.rs`.  The graph abstraction
(the `safe_graph` crate) and the `FloydWarshallResult` container are not
part of the source tree; they are modelled from the interface contract the
specification states for them.

Rust mutation is rendered as explicit state passing: a machine state holds
the caller's input graph together with the two working graphs `path` and
`next`; the triple-nested relaxation loop is a monadic fold over the node
list, and the two `unwrap` calls of the source are rendered in the `Option`
monad (an `unwrap` of `None` is the `none` outcome of the whole run).
-/

/-- Modelled from the spec: the directed weighted graph abstraction
(external collaborator, the `safe_graph` crate).  A graph is a node list
(node iteration yields every distinct node exactly once, in a stable
order) together with an edge list of `(source, destination, weight)`
triples; absence of an edge is the explicit `none` answer of
`edge_weight`. -/
structure Graph (N : Type) (F : Type) where
  nodes : List N
  edges : List (N × N × F)
deriving Repr, DecidableEq

namespace Graph

variable {N F : Type} [DecidableEq N]

/-- Lookup of the weight stored for the ordered pair `(a, b)` in an edge
list (a graph stores at most one weight per ordered pair). -/
def lookupEdge : List (N × N × F) → N → N → Option F
  | [], _, _ => none
  | e :: es, a, b => if e.1 = a ∧ e.2.1 = b then some e.2.2 else lookupEdge es a b

/-- Modelled from the spec: `edgeWeight(src, dst)` returns the weight if an
edge exists, else the explicit "absent" signal `none`. -/
def edge_weight (g : Graph N F) (a b : N) : Option F :=
  lookupEdge g.edges a b

/-- Overwrite the entry for `(a, b)` if present, append it if absent. -/
def setEdgeList : List (N × N × F) → N → N → F → List (N × N × F)
  | [], a, b, w => [(a, b, w)]
  | e :: es, a, b, w =>
    if e.1 = a ∧ e.2.1 = b then (a, b, w) :: es else e :: setEdgeList es a b w

/-- Modelled from the spec: `setEdge(src, dst, weight)` overwrites the
weight if the edge is present and inserts it if absent; it never removes
other edges. -/
def add_edge (g : Graph N F) (a b : N) (w : F) : Graph N F :=
  { g with edges := setEdgeList g.edges a b w }

/-- Modelled from the spec: edge iteration yields every
`(source, destination, weight)` triple exactly once. -/
def all_edges (g : Graph N F) : List (N × N × F) :=
  g.edges

/-- Modelled from the spec: a fresh empty graph (`Graph::with_capacity`);
the capacity arguments are only allocation hints, not load-bearing. -/
def with_capacity (_nodeCount _edgeCount : Nat) : Graph N F :=
  { nodes := [], edges := [] }

/-- Modelled from the spec: node count, used only as a capacity hint. -/
def node_count (g : Graph N F) : Nat :=
  g.nodes.length

/-- Modelled from the spec: edge count, used only as a capacity hint. -/
def edge_count (g : Graph N F) : Nat :=
  g.edges.length

end Graph

/-- Modelled from the spec: the result container of the engine, two
parallel graphs — best combined weight per pair and first hop per pair —
exposed read-only (`src/result.rs` is declared by `lib.rs` but its body is
not part of the source tree). -/
structure FloydWarshallResult (N : Type) (F : Type) where
  path : Graph N F
  next : Graph N N
deriving Repr, DecidableEq

namespace FloydWarshallResult

variable {N F : Type} [DecidableEq N]

/-- Modelled from the spec: `FloydWarshallResult::new(path, next)`. -/
def new (path : Graph N F) (next : Graph N N) : FloydWarshallResult N F :=
  { path := path, next := next }

/-- Modelled from the spec: `weight(i, j)` — best combined weight, or
"no path" (`none`) if absent. -/
def weight (r : FloydWarshallResult N F) (i j : N) : Option F :=
  r.path.edge_weight i j

/-- Modelled from the spec: `firstHop(i, j)` — first node to step to en
route from `i` to `j`, or "no path" (`none`) if absent. -/
def first_hop (r : FloydWarshallResult N F) (i j : N) : Option N :=
  r.next.edge_weight i j

end FloydWarshallResult

/-- The Floyd-Warshall algorithm structure (`struct FloydWarshall<F>` of
`src/floyd_warshall.rs`): a combination operator `op`, an acceptance
comparator `cmp` and the loop-discard flag. -/
structure FloydWarshall (F : Type) where
  op : F → F → F
  cmp : F → F → Bool
  discard_loops : Bool

namespace FloydWarshall

variable {N F : Type}

/-- `FloydWarshall::new`: the default settings.  The default operator is
addition, and the default comparator is Rust's
`x.partial_cmp(&y).unwrap_or(Greater) == Less`, i.e. exactly `x < y` with
incomparable pairs treated as "not better". -/
def new [Add F] [Preorder F] [DecidableRel ((· < ·) : F → F → Prop)] : FloydWarshall F :=
  { op := fun x y => x + y
    cmp := fun x y => decide (x < y)
    discard_loops := true }

/-- `FloydWarshall::new_fully_customized`. -/
def new_fully_customized (op : F → F → F) (cmp : F → F → Bool) (discard_loops : Bool) :
    FloydWarshall F :=
  { op := op, cmp := cmp, discard_loops := discard_loops }

/-- `FloydWarshall::new_customized`: custom `op` and `cmp`, with
`discard_loops` defaulted to `true`. -/
def new_customized (op : F → F → F) (cmp : F → F → Bool) : FloydWarshall F :=
  new_fully_customized op cmp true

/-- `FloydWarshall::dedup`, second phase: Rust's `Vec::dedup` removes only
consecutive repeated elements. -/
def dedupConsecutive [DecidableEq T] : List T → List T
  | [] => []
  | [a] => [a]
  | a :: b :: l => if a = b then dedupConsecutive (b :: l) else a :: dedupConsecutive (b :: l)

/-- `FloydWarshall::dedup`: sort the elements, then remove consecutive
duplicates.  Rust's stable `Vec::sort` is modelled by insertion sort
(stable, hence extensionally the same result). -/
def dedup [LinearOrder T] (elements : List T) : List T :=
  dedupConsecutive (List.insertionSort (· ≤ ·) elements)

/-- `FloydWarshall::unique`: are the elements unique (no duplicates
present)?  The length after sort-and-dedup is compared with the length
before. -/
def unique [LinearOrder T] (elements : List T) : Bool :=
  (dedup elements).length = elements.length

end FloydWarshall

/-- The state of one `find_paths` run: the caller's input graph (held by
shared reference in the source, hence never written), the working `path`
graph (the private clone) and the `next` graph. -/
structure FWState (N : Type) (F : Type) where
  graph : Graph N F
  path : Graph N F
  next : Graph N N
deriving Repr, DecidableEq

namespace FloydWarshall

variable {N F : Type} [LinearOrder N]

/-- The body of the innermost loop of `find_paths` for the triple
`(k, i, j)`: skip discarded or incomplete triples, otherwise relax the
pair `(i, j)` through `k`.  The two `unwrap` calls of the source are the
`none` outcomes. -/
def relax (alg : FloydWarshall F) (st : FWState N F) (k i j : N) : Option (FWState N F) :=
  if alg.discard_loops && !(unique [k, i, j]) then some st
  else
    match st.path.edge_weight i k, st.path.edge_weight k j with
    | some left_operand, some right_operand =>
      let new_weight := alg.op left_operand right_operand
      match st.path.edge_weight i j with
      | some old_weight =>
        if alg.cmp new_weight old_weight then
          match st.next.edge_weight i k with
          | some direction =>
            some { st with
              path := st.path.add_edge i j new_weight
              next := st.next.add_edge i j direction }
          | none => none
        else some st
      | none =>
        match st.next.edge_weight i k with
        | some direction =>
          some { st with
            path := st.path.add_edge i j new_weight
            next := st.next.add_edge i j direction }
        | none => none
    | _, _ => some st

/-- The innermost (`j`) loop of `find_paths`, for fixed `k` and `i`. -/
def loopJ (alg : FloydWarshall F) (ns : List N) (k i : N) (st : FWState N F) :
    Option (FWState N F) :=
  List.foldlM (fun st j => relax alg st k i j) st ns

/-- The middle (`i`) loop of `find_paths`, for fixed `k`. -/
def loopI (alg : FloydWarshall F) (ns : List N) (k : N) (st : FWState N F) :
    Option (FWState N F) :=
  List.foldlM (fun st i => loopJ alg ns k i st) st ns

/-- The outer (`k`) loop of `find_paths`. -/
def loopK (alg : FloydWarshall F) (ns : List N) (st : FWState N F) :
    Option (FWState N F) :=
  List.foldlM (fun st k => loopI alg ns k st) st ns

/-- The `next` graph right after initialization: for every edge `(a, b)`
of the input graph, `next[a][b] = b`. -/
def initNext (g : Graph N F) : Graph N N :=
  g.all_edges.foldl (fun nx e => nx.add_edge e.1 e.2.1 e.2.1)
    (Graph.with_capacity g.node_count g.edge_count)

/-- The machine state at entry of `find_paths`: the working `path` graph
is a clone of the input graph, and `next` is initialized from the input's
direct edges. -/
def initState (g : Graph N F) : FWState N F :=
  { graph := g, path := g, next := initNext g }

/-- `FloydWarshall::find_paths`: clone the input into the working `path`
graph, initialize `next` from the direct edges, run the triple-nested
relaxation loop (`k` outermost), and return the result.  `none` is the
panic outcome of an `unwrap` in the source. -/
def find_paths (alg : FloydWarshall F) (graph : Graph N F) :
    Option (FloydWarshallResult N F) :=
  (loopK alg graph.nodes (initState graph)).map fun st =>
    FloydWarshallResult.new st.path st.next

/-- The path/next definedness invariant: a first hop is recorded for a
pair exactly when a weight is. -/
def PathNextInv (st : FWState N F) : Prop :=
  ∀ a b : N, (st.path.edge_weight a b).isSome = true ↔
    (st.next.edge_weight a b).isSome = true

/-- The first-hop values invariant: every recorded first hop `c` of a
pair `(a, b)` is an out-neighbor of `a` in the caller's input graph. -/
def NextHopEdge (st : FWState N F) : Prop :=
  ∀ a b c : N, st.next.edge_weight a b = some c →
    (st.graph.edge_weight a c).isSome = true

end FloydWarshall

namespace FloydWarshall

variable {F : Type}

/-- A nonempty walk of the graph `g` from `a` to `b` whose intermediate
nodes are `p`, with total weight `w` (weights combined by addition, the
default operator). -/
inductive Walk {N : Type} [DecidableEq N] (g : Graph N ℕ) : N → List N → N → ℕ → Prop where
  | single {a b : N} {w : ℕ} : g.edge_weight a b = some w → Walk g a [] b w
  | cons {a x b : N} {p : List N} {w1 w2 : ℕ} :
      g.edge_weight a x = some w1 → Walk g x p b w2 → Walk g a (x :: p) b (w1 + w2)

/-- Soundness invariant of the default run: every recorded weight is the
weight of an actual walk of the input graph, all of whose intermediate
nodes are nodes of the input graph. -/
def SoundPaths {N : Type} [DecidableEq N] (g : Graph N ℕ) (st : FWState N ℕ) : Prop :=
  ∀ a b w, st.path.edge_weight a b = some w →
    ∃ xs, (∀ x ∈ xs, x ∈ g.nodes) ∧ Walk g a xs b w

/-- Completeness invariant of the default run: once the intermediates in
`K` have been processed by the outer loop, every simple path whose
intermediate nodes lie in `K` is matched or beaten by a recorded weight. -/
def CompletePaths {N : Type} [DecidableEq N] (g : Graph N ℕ) (K : List N) (st : FWState N ℕ) :
    Prop :=
  ∀ a b xs w, a ∈ g.nodes → b ∈ g.nodes → a ≠ b → Walk g a xs b w →
    (∀ x ∈ xs, x ∈ K) → (a :: (xs ++ [b])).Nodup →
    ∃ v, st.path.edge_weight a b = some v ∧ v ≤ w

/-- Under the default comparator, recorded weights persist and never
increase. -/
def Improves {N : Type} [DecidableEq N] (st st2 : FWState N ℕ) : Prop :=
  ∀ a b w, st.path.edge_weight a b = some w →
    ∃ v, st2.path.edge_weight a b = some v ∧ v ≤ w

/-- The optimality property claimed for the finished result: for all
nodes `i`, `j`, `k`, whenever both `path[i][k]` and `path[k][j]` are
present, `path[i][j]` is present and `cmp(op(path[i][k], path[k][j]),
path[i][j])` answers false. -/
def NoImprovingTriple {N : Type} [DecidableEq N] (alg : FloydWarshall F) (g : Graph N F)
    (r : FloydWarshallResult N F) : Prop :=
  ∀ i ∈ g.nodes, ∀ j ∈ g.nodes, ∀ k ∈ g.nodes, ∀ w1 w2,
    r.path.edge_weight i k = some w1 → r.path.edge_weight k j = some w2 →
    ∃ w, r.path.edge_weight i j = some w ∧ alg.cmp (alg.op w1 w2) w = false

/-- A two-node cycle with unit weights. -/
def gTwoCycle : Graph ℕ ℕ :=
  { nodes := [0, 1], edges := [(0, 1, 1), (1, 0, 1)] }

/-- A negative three-cycle over integer weights. -/
def gNegCycle : Graph ℕ ℤ :=
  { nodes := [0, 1, 2], edges := [(0, 1, -1), (1, 2, -1), (2, 0, -1)] }

/-- A three-node graph in which the direct edge `0 → 2` is beaten by the
two-edge route through `1`. -/
def gSample : Graph ℕ ℕ :=
  { nodes := [0, 1, 2], edges := [(0, 1, 1), (1, 2, 1), (0, 2, 5)] }

/-- The machine state after relaxing the pair `(0, 2)` of `gSample`
through `1` from the initial state. -/
def stC5 : FWState ℕ ℕ :=
  { graph := gSample
    path := { nodes := [0, 1, 2], edges := [(0, 1, 1), (1, 2, 1), (0, 2, 2)] }
    next := { nodes := [], edges := [(0, 1, 1), (1, 2, 2), (0, 2, 1)] } }

/-- The result of the default run on `gSample`. -/
def rSample : FloydWarshallResult ℕ ℕ :=
  { path := { nodes := [0, 1, 2], edges := [(0, 1, 1), (1, 2, 1), (0, 2, 2)] }
    next := { nodes := [], edges := [(0, 1, 1), (1, 2, 2), (0, 2, 1)] } }

/-- The result of the default run on `gTwoCycle`. -/
def rTwoCycle : FloydWarshallResult ℕ ℕ :=
  { path := { nodes := [0, 1], edges := [(0, 1, 1), (1, 0, 1)] }
    next := { nodes := [], edges := [(0, 1, 1), (1, 0, 0)] } }

/-- The result of the default run on `gNegCycle`. -/
def rNegCycle : FloydWarshallResult ℕ ℤ :=
  { path := { nodes := [0, 1, 2],
              edges := [(0, 1, -4), (1, 2, -1), (2, 0, -1), (2, 1, -2), (0, 2, -2), (1, 0, -2)] }
    next := { nodes := [],
              edges := [(0, 1, 1), (1, 2, 2), (2, 0, 0), (2, 1, 0), (0, 2, 1), (1, 0, 2)] } }

end FloydWarshall

/-! ### Basic graph lemmas -/

namespace Graph

variable {N F : Type} [DecidableEq N]

theorem lookupEdge_nil (a b : N) : lookupEdge ([] : List (N × N × F)) a b = none := rfl

theorem lookupEdge_cons (e : N × N × F) (es : List (N × N × F)) (a b : N) :
    lookupEdge (e :: es) a b =
      if e.1 = a ∧ e.2.1 = b then some e.2.2 else lookupEdge es a b := rfl

theorem setEdgeList_nil (a b : N) (w : F) :
    setEdgeList ([] : List (N × N × F)) a b w = [(a, b, w)] := rfl

theorem setEdgeList_cons (e : N × N × F) (es : List (N × N × F)) (a b : N) (w : F) :
    setEdgeList (e :: es) a b w =
      if e.1 = a ∧ e.2.1 = b then (a, b, w) :: es else e :: setEdgeList es a b w := rfl

theorem lookupEdge_setEdgeList (a b x y : N) (w : F) :
    ∀ (es : List (N × N × F)),
      lookupEdge (setEdgeList es a b w) x y =
        if x = a ∧ y = b then some w else lookupEdge es x y
  | [] => by
    rw [setEdgeList_nil, lookupEdge_cons, lookupEdge_nil]
    split_ifs with h1 h2 h2
    · rfl
    · exact absurd ⟨h1.1.symm, h1.2.symm⟩ h2
    · exact absurd ⟨h2.1.symm, h2.2.symm⟩ h1
    · rfl
  | e :: es => by
    rw [setEdgeList_cons]
    by_cases hm : e.1 = a ∧ e.2.1 = b
    · rw [if_pos hm, lookupEdge_cons]
      by_cases hxy : x = a ∧ y = b
      · rw [if_pos (show ((a, b, w) : N × N × F).1 = x ∧ ((a, b, w) : N × N × F).2.1 = y from
          ⟨hxy.1.symm, hxy.2.symm⟩), if_pos hxy]
      · rw [if_neg (show ¬(((a, b, w) : N × N × F).1 = x ∧ ((a, b, w) : N × N × F).2.1 = y) from
          fun h => hxy ⟨h.1.symm, h.2.symm⟩), if_neg hxy, lookupEdge_cons,
          if_neg (show ¬(e.1 = x ∧ e.2.1 = y) from
            fun h => hxy ⟨h.1.symm.trans hm.1, h.2.symm.trans hm.2⟩)]
    · rw [if_neg hm, lookupEdge_cons, lookupEdge_cons]
      by_cases hex : e.1 = x ∧ e.2.1 = y
      · have hxy : ¬(x = a ∧ y = b) := fun h => hm ⟨hex.1.trans h.1, hex.2.trans h.2⟩
        rw [if_pos hex, if_neg hxy, if_pos hex]
      · rw [if_neg hex, if_neg hex, lookupEdge_setEdgeList a b x y w es]

/-- The fundamental lemma about `add_edge`: the weight stored at `(x, y)`
after `add_edge a b w` is `w` when `(x, y) = (a, b)` and the old weight
otherwise. -/
theorem edge_weight_add_edge (g : Graph N F) (a b x y : N) (w : F) :
    (g.add_edge a b w).edge_weight x y =
      if x = a ∧ y = b then some w else g.edge_weight x y :=
  lookupEdge_setEdgeList a b x y w g.edges

theorem nodes_add_edge (g : Graph N F) (a b : N) (w : F) :
    (g.add_edge a b w).nodes = g.nodes := rfl

theorem edge_weight_empty (a b : N) :
    (Graph.mk ([] : List N) ([] : List (N × N × F))).edge_weight a b = none := rfl

end Graph

/-! ### Correctness of the sort-and-dedup distinctness test -/

namespace FloydWarshall

theorem dedupConsecutive_sublist [DecidableEq T] :
    ∀ (l : List T), List.Sublist (dedupConsecutive l) l
  | [] => List.Sublist.refl []
  | [a] => List.Sublist.refl [a]
  | a :: b :: l => by
    rw [dedupConsecutive]
    by_cases hab : a = b
    · rw [if_pos hab]
      exact List.Sublist.cons a (dedupConsecutive_sublist (b :: l))
    · rw [if_neg hab]
      exact List.Sublist.cons₂ a (dedupConsecutive_sublist (b :: l))

theorem dedupConsecutive_eq_self_iff [DecidableEq T] :
    ∀ (l : List T), dedupConsecutive l = l ↔ l.Chain' (· ≠ ·)
  | [] => by simp [dedupConsecutive]
  | [a] => by simp [dedupConsecutive]
  | a :: b :: l => by
    rw [dedupConsecutive]
    by_cases hab : a = b
    · rw [if_pos hab]
      constructor
      · intro h
        have hle := (dedupConsecutive_sublist (b :: l)).length_le
        rw [h] at hle
        simp at hle
      · intro h
        exact absurd hab (List.chain'_cons.mp h).1
    · rw [if_neg hab]
      constructor
      · intro h
        have h2 : dedupConsecutive (b :: l) = b :: l := by
          injection h
        exact List.chain'_cons.mpr ⟨hab, (dedupConsecutive_eq_self_iff (b :: l)).mp h2⟩
      · intro h
        rw [(dedupConsecutive_eq_self_iff (b :: l)).mpr (List.chain'_cons.mp h).2]

theorem chain_ne_iff_nodup_of_sorted [LinearOrder T] :
    ∀ (l : List T), l.Sorted (· ≤ ·) → (l.Chain' (· ≠ ·) ↔ l.Nodup)
  | [] => fun _ => by simp
  | [a] => fun _ => by simp
  | a :: b :: l => fun h => by
    rw [List.sorted_cons] at h
    obtain ⟨hab, hs⟩ := h
    have ih := chain_ne_iff_nodup_of_sorted (b :: l) hs
    rw [List.chain'_cons, List.nodup_cons, ih]
    constructor
    · rintro ⟨hne, hnd⟩
      refine ⟨?_, hnd⟩
      intro hmem
      rcases List.mem_cons.mp hmem with h1 | h1
      · exact hne h1
      · have hba : b ≤ a := (List.sorted_cons.mp hs).1 a h1
        exact hne (le_antisymm (hab b (List.mem_cons_self b l)) hba)
    · rintro ⟨hmem, hnd⟩
      exact ⟨fun h => hmem (h ▸ List.mem_cons_self b l), hnd⟩

/-- The distinctness test used by the engine is exact: `unique` answers
`true` precisely when the list has no duplicates. -/
theorem unique_iff_nodup [LinearOrder T] (l : List T) : unique l = true ↔ l.Nodup := by
  have hperm := List.perm_insertionSort ((· ≤ ·) : T → T → Prop) l
  have hsorted := List.sorted_insertionSort ((· ≤ ·) : T → T → Prop) l
  rw [show unique l = ((dedup l).length = l.length : Bool) from rfl, decide_eq_true_eq, dedup]
  rw [show l.length = (List.insertionSort (· ≤ ·) l).length from hperm.length_eq.symm]
  constructor
  · intro h
    have heq := (dedupConsecutive_sublist (List.insertionSort (· ≤ ·) l)).eq_of_length h
    have := (dedupConsecutive_eq_self_iff _).mp heq
    exact hperm.nodup_iff.mp
      ((chain_ne_iff_nodup_of_sorted (List.insertionSort (· ≤ ·) l) hsorted).mp this)
  · intro h
    have hnodup := hperm.nodup_iff.mpr h
    have := (chain_ne_iff_nodup_of_sorted (List.insertionSort (· ≤ ·) l) hsorted).mpr hnodup
    rw [(dedupConsecutive_eq_self_iff _).mpr this]

/-- On the three loop variables, `unique` answers `true` exactly when the
three nodes are pairwise distinct. -/
theorem unique_triple_iff [LinearOrder T] (k i j : T) :
    unique [k, i, j] = true ↔ k ≠ i ∧ k ≠ j ∧ i ≠ j := by
  rw [unique_iff_nodup]
  simp only [List.nodup_cons, List.mem_cons, List.mem_singleton, List.not_mem_nil,
    List.nodup_nil, and_true, not_or, not_false_iff]
  tauto

end FloydWarshall

/-! ### Case analysis of one relaxation step -/

namespace FloydWarshall

variable {N F : Type} [LinearOrder N]

/-- Exhaustive case analysis of `relax`: either the triple is skipped
(state unchanged), or both operands and the recorded first hop of
`(i, k)` exist, the candidate is accepted (pair absent, or comparator
approves) and both `path[i][j]` and `next[i][j]` are written, or the
`unwrap` of `next[i][k]` would panic (`none` outcome). -/
theorem relax_cases (alg : FloydWarshall F) (st : FWState N F) (k i j : N) :
    relax alg st k i j = some st ∨
    (∃ w1 w2 d,
      (alg.discard_loops && !(unique [k, i, j])) = false ∧
      st.path.edge_weight i k = some w1 ∧
      st.path.edge_weight k j = some w2 ∧
      st.next.edge_weight i k = some d ∧
      (st.path.edge_weight i j = none ∨
        ∃ old, st.path.edge_weight i j = some old ∧ alg.cmp (alg.op w1 w2) old = true) ∧
      relax alg st k i j = some { st with
        path := st.path.add_edge i j (alg.op w1 w2)
        next := st.next.add_edge i j d }) ∨
    ((st.path.edge_weight i k).isSome = true ∧ st.next.edge_weight i k = none ∧
      relax alg st k i j = none) := by
  unfold relax
  by_cases hg : (alg.discard_loops && !(unique [k, i, j])) = true
  · rw [if_pos hg]
    exact Or.inl rfl
  · have hg2 : (alg.discard_loops && !(unique [k, i, j])) = false := by simpa using hg
    rw [if_neg hg]
    rcases hik : st.path.edge_weight i k with _ | w1
    · left; simp [hik]
    rcases hkj : st.path.edge_weight k j with _ | w2
    · left; simp [hik, hkj]
    rcases hij : st.path.edge_weight i j with _ | old
    · rcases hnik : st.next.edge_weight i k with _ | d
      · right; right
        exact ⟨rfl, rfl, by simp [hik, hkj, hij, hnik]⟩
      · right; left
        exact ⟨w1, w2, d, hg2, rfl, rfl, rfl, Or.inl rfl, by simp [hik, hkj, hij, hnik]⟩
    · by_cases hc : alg.cmp (alg.op w1 w2) old = true
      · rcases hnik : st.next.edge_weight i k with _ | d
        · right; right
          exact ⟨rfl, rfl, by simp [hik, hkj, hij, hnik, hc]⟩
        · right; left
          exact ⟨w1, w2, d, hg2, rfl, rfl, rfl, Or.inr ⟨old, rfl, hc⟩,
            by simp [hik, hkj, hij, hnik, hc]⟩
      · have hc2 : alg.cmp (alg.op w1 w2) old = false := by simpa using hc
        left
        simp [hik, hkj, hij, hc2]

/-- A relaxation step never writes the caller's graph. -/
theorem relax_graph_eq (alg : FloydWarshall F) (st : FWState N F) (k i j : N)
    (st2 : FWState N F) (h : relax alg st k i j = some st2) : st2.graph = st.graph := by
  rcases relax_cases alg st k i j with h1 | ⟨w1, w2, d, -, -, -, -, -, h1⟩ | ⟨-, -, h1⟩
  · rw [h1] at h; exact (Option.some_injective _ h).symm ▸ rfl
  · rw [h1] at h; rw [← Option.some_injective _ h]
  · rw [h1] at h; exact absurd h (by simp)

/-- A relaxation step is total as soon as the first hop for `(i, k)` is
recorded whenever a weight for `(i, k)` is: the guarded `unwrap` calls
cannot panic. -/
theorem relax_total (alg : FloydWarshall F) (st : FWState N F) (k i j : N)
    (hinv : (st.path.edge_weight i k).isSome = true →
      (st.next.edge_weight i k).isSome = true) :
    (relax alg st k i j).isSome = true := by
  rcases relax_cases alg st k i j with h1 | ⟨w1, w2, d, -, -, -, -, -, h1⟩ | ⟨hp, hn, h1⟩
  · rw [h1]; rfl
  · rw [h1]; rfl
  · rw [hn] at hinv
    exact absurd (hinv hp) (by simp)

/-- One relaxation step preserves the path/next definedness invariant. -/
theorem relax_pres_inv (alg : FloydWarshall F) (st : FWState N F) (k i j : N)
    (st2 : FWState N F) (h : relax alg st k i j = some st2)
    (hinv : PathNextInv st) : PathNextInv st2 := by
  rcases relax_cases alg st k i j with h1 | ⟨w1, w2, d, -, -, -, -, -, h1⟩ | ⟨-, -, h1⟩
  · rw [h1] at h; rw [← Option.some_injective _ h]; exact hinv
  · rw [h1] at h
    rw [← Option.some_injective _ h]
    intro a b
    show ((st.path.add_edge i j (alg.op w1 w2)).edge_weight a b).isSome = true ↔
      ((st.next.add_edge i j d).edge_weight a b).isSome = true
    rw [Graph.edge_weight_add_edge, Graph.edge_weight_add_edge]
    by_cases hab : a = i ∧ b = j
    · rw [if_pos hab, if_pos hab]; simp
    · rw [if_neg hab, if_neg hab]; exact hinv a b
  · rw [h1] at h; exact absurd h (by simp)

/-- One relaxation step preserves the first-hop values invariant. -/
theorem relax_pres_nextHop (alg : FloydWarshall F) (st : FWState N F) (k i j : N)
    (st2 : FWState N F) (h : relax alg st k i j = some st2)
    (hinv : NextHopEdge st) : NextHopEdge st2 := by
  rcases relax_cases alg st k i j with h1 | ⟨w1, w2, d, -, -, -, hnik, -, h1⟩ | ⟨-, -, h1⟩
  · rw [h1] at h; rw [← Option.some_injective _ h]; exact hinv
  · rw [h1] at h
    rw [← Option.some_injective _ h]
    intro a b c
    show (st.next.add_edge i j d).edge_weight a b = some c →
      (st.graph.edge_weight a c).isSome = true
    rw [Graph.edge_weight_add_edge]
    by_cases hab : a = i ∧ b = j
    · rw [if_pos hab]
      intro hc
      have hcd : c = d := by injection hc with h2; exact h2.symm
      rw [hab.1, hcd]
      exact hinv i k d hnik
    · rw [if_neg hab]; exact hinv a b c
  · rw [h1] at h; exact absurd h (by simp)

/-- With loop discarding on, a relaxation step never creates a `(x, x)`
entry in either working graph. -/
theorem relax_pres_no_loop (alg : FloydWarshall F) (st : FWState N F) (k i j : N)
    (st2 : FWState N F) (hd : alg.discard_loops = true)
    (h : relax alg st k i j = some st2) (x : N)
    (hp : st.path.edge_weight x x = none) (hn : st.next.edge_weight x x = none) :
    st2.path.edge_weight x x = none ∧ st2.next.edge_weight x x = none := by
  rcases relax_cases alg st k i j with h1 | ⟨w1, w2, d, hg, -, -, -, -, h1⟩ | ⟨-, -, h1⟩
  · rw [h1] at h; rw [← Option.some_injective _ h]; exact ⟨hp, hn⟩
  · rw [h1] at h
    rw [hd] at hg
    have huniq : unique [k, i, j] = true := by simpa using hg
    have hij : i ≠ j := ((unique_triple_iff k i j).mp huniq).2.2
    have hxx : ¬(x = i ∧ x = j) := fun h2 => hij (h2.1 ▸ h2.2 ▸ rfl)
    rw [← Option.some_injective _ h]
    constructor
    · show (st.path.add_edge i j (alg.op w1 w2)).edge_weight x x = none
      rw [Graph.edge_weight_add_edge, if_neg hxx]; exact hp
    · show (st.next.add_edge i j d).edge_weight x x = none
      rw [Graph.edge_weight_add_edge, if_neg hxx]; exact hn
  · rw [h1] at h; exact absurd h (by simp)

/-- Monotonic improvement, one step: a present weight stays present, and
when it changes the comparator approved the new value against the old. -/
theorem relax_mono (alg : FloydWarshall F) (st : FWState N F) (k i j : N)
    (st2 : FWState N F) (h : relax alg st k i j = some st2)
    (a b : N) (old : F) (hold : st.path.edge_weight a b = some old) :
    ∃ v, st2.path.edge_weight a b = some v ∧ (v = old ∨ alg.cmp v old = true) := by
  rcases relax_cases alg st k i j with h1 | ⟨w1, w2, d, -, -, -, -, hacc, h1⟩ | ⟨-, -, h1⟩
  · rw [h1] at h; rw [← Option.some_injective _ h]
    exact ⟨old, hold, Or.inl rfl⟩
  · rw [h1] at h
    rw [← Option.some_injective _ h]
    by_cases hab : a = i ∧ b = j
    · refine ⟨alg.op w1 w2, ?_, ?_⟩
      · show (st.path.add_edge i j (alg.op w1 w2)).edge_weight a b = _
        rw [Graph.edge_weight_add_edge, if_pos hab]
      · rcases hacc with h2 | ⟨old2, h2, h3⟩
        · rw [hab.1, hab.2] at hold; rw [hold] at h2; exact absurd h2 (by simp)
        · rw [hab.1, hab.2] at hold; rw [hold] at h2
          have : old2 = old := by injection h2 with h4; exact h4.symm
          exact Or.inr (this ▸ h3)
    · refine ⟨old, ?_, Or.inl rfl⟩
      show (st.path.add_edge i j (alg.op w1 w2)).edge_weight a b = _
      rw [Graph.edge_weight_add_edge, if_neg hab]; exact hold
  · rw [h1] at h; exact absurd h (by simp)

/-- With loop discarding on, row `k` and column `k` of the working `path`
graph are frozen during the iteration of the outer loop for `k`. -/
theorem relax_frozen (alg : FloydWarshall F) (st : FWState N F) (k i j : N)
    (st2 : FWState N F) (hd : alg.discard_loops = true)
    (h : relax alg st k i j = some st2) :
    (∀ a, st2.path.edge_weight a k = st.path.edge_weight a k) ∧
    (∀ b, st2.path.edge_weight k b = st.path.edge_weight k b) := by
  rcases relax_cases alg st k i j with h1 | ⟨w1, w2, d, hg, -, -, -, -, h1⟩ | ⟨-, -, h1⟩
  · rw [h1] at h; rw [← Option.some_injective _ h]; exact ⟨fun _ => rfl, fun _ => rfl⟩
  · rw [h1] at h
    rw [hd] at hg
    have huniq : unique [k, i, j] = true := by simpa using hg
    obtain ⟨hki, hkj, -⟩ := (unique_triple_iff k i j).mp huniq
    rw [← Option.some_injective _ h]
    constructor
    · intro a
      show (st.path.add_edge i j (alg.op w1 w2)).edge_weight a k = _
      rw [Graph.edge_weight_add_edge, if_neg (fun h2 => hkj h2.2)]
    · intro b
      show (st.path.add_edge i j (alg.op w1 w2)).edge_weight k b = _
      rw [Graph.edge_weight_add_edge, if_neg (fun h2 => hki h2.1)]
  · rw [h1] at h; exact absurd h (by simp)

end FloydWarshall

/-! ### Fold combinators for the Option-monad loops -/

namespace FloydWarshall

theorem foldlM_some_pres {σ α : Type} (f : σ → α → Option σ) (P : σ → Prop) :
    ∀ (l : List α), (∀ s a, a ∈ l → P s → ∃ s2, f s a = some s2 ∧ P s2) →
      ∀ s, P s → ∃ s2, List.foldlM f s l = some s2 ∧ P s2
  | [] => fun _ s hs => ⟨s, by rw [List.foldlM_nil]; rfl, hs⟩
  | a :: l => fun hf s hs => by
    obtain ⟨s1, hfa, hs1⟩ := hf s a (List.mem_cons_self a l) hs
    obtain ⟨s2, hl, hs2⟩ := foldlM_some_pres f P l
      (fun s x hx hP => hf s x (List.mem_cons_of_mem a hx) hP) s1 hs1
    refine ⟨s2, ?_, hs2⟩
    rw [List.foldlM_cons, hfa]
    exact hl

theorem foldlM_some_rel {σ α : Type} (f : σ → α → Option σ) (R : σ → σ → Prop)
    (hrefl : ∀ s, R s s) (htrans : ∀ s1 s2 s3, R s1 s2 → R s2 s3 → R s1 s3) :
    ∀ (l : List α), (∀ s a s2, a ∈ l → f s a = some s2 → R s s2) →
      ∀ s s2, List.foldlM f s l = some s2 → R s s2
  | [] => fun _ s s2 h => by
    rw [List.foldlM_nil] at h
    exact (Option.some_injective _ h) ▸ hrefl s
  | a :: l => fun hf s s2 h => by
    rw [List.foldlM_cons] at h
    rcases hfa : f s a with _ | s1
    · rw [hfa] at h; simp at h
    · rw [hfa] at h
      exact htrans s s1 s2 (hf s a s1 (List.mem_cons_self a l) hfa)
        (foldlM_some_rel f R hrefl htrans l
          (fun s x s3 hx hfx => hf s x s3 (List.mem_cons_of_mem a hx) hfx) s1 s2 h)

variable {N F : Type} [LinearOrder N]

/-- Totality plus invariant preservation through the `j` loop. -/
theorem loopJ_total (alg : FloydWarshall F) (ns : List N) (k i : N)
    (st : FWState N F) (hinv : PathNextInv st) :
    ∃ st2, loopJ alg ns k i st = some st2 ∧ PathNextInv st2 :=
  foldlM_some_pres _ PathNextInv ns
    (fun s j _ hP =>
      have htot := relax_total alg s k i j (fun hp => (hP i k).mp hp)
      Option.isSome_iff_exists.mp htot |>.elim fun s2 h2 =>
        ⟨s2, h2, relax_pres_inv alg s k i j s2 h2 hP⟩)
    st hinv

/-- Totality plus invariant preservation through the `i` loop. -/
theorem loopI_total (alg : FloydWarshall F) (ns : List N) (k : N)
    (st : FWState N F) (hinv : PathNextInv st) :
    ∃ st2, loopI alg ns k st = some st2 ∧ PathNextInv st2 :=
  foldlM_some_pres _ PathNextInv ns
    (fun s i _ hP => loopJ_total alg ns k i s hP)
    st hinv

/-- Totality plus invariant preservation through the `k` loop. -/
theorem loopK_total (alg : FloydWarshall F) (ns : List N)
    (st : FWState N F) (hinv : PathNextInv st) :
    ∃ st2, loopK alg ns st = some st2 ∧ PathNextInv st2 :=
  foldlM_some_pres _ PathNextInv ns
    (fun s k _ hP => loopI_total alg ns k s hP)
    st hinv

/-- Any reflexive transitive relation that every relaxation step respects
is respected by the full triple loop. -/
theorem loopJ_rel (alg : FloydWarshall F) (ns : List N) (k i : N)
    (R : FWState N F → FWState N F → Prop)
    (hrefl : ∀ s, R s s) (htrans : ∀ s1 s2 s3, R s1 s2 → R s2 s3 → R s1 s3)
    (hstep : ∀ s j s2, relax alg s k i j = some s2 → R s s2) :
    ∀ st st2, loopJ alg ns k i st = some st2 → R st st2 :=
  foldlM_some_rel _ R hrefl htrans ns (fun s j s2 _ h => hstep s j s2 h)

theorem loopI_rel (alg : FloydWarshall F) (ns : List N) (k : N)
    (R : FWState N F → FWState N F → Prop)
    (hrefl : ∀ s, R s s) (htrans : ∀ s1 s2 s3, R s1 s2 → R s2 s3 → R s1 s3)
    (hstep : ∀ s i j s2, relax alg s k i j = some s2 → R s s2) :
    ∀ st st2, loopI alg ns k st = some st2 → R st st2 :=
  foldlM_some_rel _ R hrefl htrans ns
    (fun s i s2 _ h => loopJ_rel alg ns k i R hrefl htrans (fun s j s3 h2 => hstep s i j s3 h2) s s2 h)

theorem loopK_rel (alg : FloydWarshall F) (ns : List N)
    (R : FWState N F → FWState N F → Prop)
    (hrefl : ∀ s, R s s) (htrans : ∀ s1 s2 s3, R s1 s2 → R s2 s3 → R s1 s3)
    (hstep : ∀ s k i j s2, relax alg s k i j = some s2 → R s s2) :
    ∀ st st2, loopK alg ns st = some st2 → R st st2 :=
  foldlM_some_rel _ R hrefl htrans ns
    (fun s k s2 _ h => loopI_rel alg ns k R hrefl htrans (fun s i j s3 h2 => hstep s k i j s3 h2) s s2 h)

/-- The whole triple loop never writes the caller's graph. -/
theorem loopK_graph_eq (alg : FloydWarshall F) (ns : List N)
    (st st2 : FWState N F) (h : loopK alg ns st = some st2) : st2.graph = st.graph :=
  loopK_rel alg ns (fun s s2 => s2.graph = s.graph) (fun _ => rfl)
    (fun _ _ _ h1 h2 => h2.trans h1)
    (fun s k i j s2 h2 => relax_graph_eq alg s k i j s2 h2) st st2 h

/-- The whole triple loop preserves the first-hop values invariant. -/
theorem loopK_nextHop (alg : FloydWarshall F) (ns : List N)
    (st st2 : FWState N F) (h : loopK alg ns st = some st2)
    (hinv : NextHopEdge st) : NextHopEdge st2 :=
  loopK_rel alg ns (fun s s2 => NextHopEdge s → NextHopEdge s2) (fun _ h1 => h1)
    (fun _ _ _ h1 h2 h3 => h2 (h1 h3))
    (fun s k i j s2 h2 hQ => relax_pres_nextHop alg s k i j s2 h2 hQ) st st2 h hinv

/-- With loop discarding on, the whole triple loop never creates a
`(x, x)` entry in either working graph. -/
theorem loopK_no_loop (alg : FloydWarshall F) (ns : List N)
    (st st2 : FWState N F) (hd : alg.discard_loops = true)
    (h : loopK alg ns st = some st2) (x : N)
    (hp : st.path.edge_weight x x = none) (hn : st.next.edge_weight x x = none) :
    st2.path.edge_weight x x = none ∧ st2.next.edge_weight x x = none :=
  loopK_rel alg ns
    (fun s s2 => (s.path.edge_weight x x = none ∧ s.next.edge_weight x x = none) →
      (s2.path.edge_weight x x = none ∧ s2.next.edge_weight x x = none))
    (fun _ h1 => h1) (fun _ _ _ h1 h2 h3 => h2 (h1 h3))
    (fun s k i j s2 h2 hQ => relax_pres_no_loop alg s k i j s2 hd h2 x hQ.1 hQ.2)
    st st2 h ⟨hp, hn⟩

end FloydWarshall

/-! ### The initial state -/

namespace FloydWarshall

variable {N F : Type} [LinearOrder N]

theorem foldl_addNext_edge_weight (a b : N) :
    ∀ (l : List (N × N × F)) (nx : Graph N N),
      (l.foldl (fun nx e => nx.add_edge e.1 e.2.1 e.2.1) nx).edge_weight a b =
        if (Graph.lookupEdge l a b).isSome = true then some b else nx.edge_weight a b
  | [], nx => by
    rw [List.foldl_nil]
    rfl
  | e :: l, nx => by
    rw [List.foldl_cons, foldl_addNext_edge_weight a b l (nx.add_edge e.1 e.2.1 e.2.1),
      Graph.lookupEdge_cons]
    by_cases hm : e.1 = a ∧ e.2.1 = b
    · rw [if_pos hm]
      by_cases hl : (Graph.lookupEdge l a b).isSome = true
      · rw [if_pos hl]
        simp
      · rw [if_neg hl, Graph.edge_weight_add_edge,
          if_pos (show a = e.1 ∧ b = e.2.1 from ⟨hm.1.symm, hm.2.symm⟩)]
        rw [hm.2]
        simp
    · rw [if_neg hm, Graph.edge_weight_add_edge,
        if_neg (show ¬(a = e.1 ∧ b = e.2.1) from fun h => hm ⟨h.1.symm, h.2.symm⟩)]

/-- The initialized `next` graph records, for every direct edge `(a, b)`
of the input, the hop `b`, and nothing else. -/
theorem initNext_edge_weight (g : Graph N F) (a b : N) :
    (initNext g).edge_weight a b =
      if (g.edge_weight a b).isSome = true then some b else none := by
  unfold initNext
  rw [foldl_addNext_edge_weight]
  rfl

theorem initState_inv (g : Graph N F) : PathNextInv (initState g) := by
  intro a b
  show (g.edge_weight a b).isSome = true ↔ ((initNext g).edge_weight a b).isSome = true
  rw [initNext_edge_weight]
  by_cases h : (g.edge_weight a b).isSome = true
  · rw [if_pos h]
    simpa using h
  · rw [if_neg h]
    exact iff_of_false h (by simp)

theorem initState_nextHop (g : Graph N F) : NextHopEdge (initState g) := by
  intro a b c h
  have h2 : (initNext g).edge_weight a b = some c := h
  rw [initNext_edge_weight] at h2
  by_cases hs : (g.edge_weight a b).isSome = true
  · rw [if_pos hs] at h2
    have : b = c := by injection h2
    show (g.edge_weight a c).isSome = true
    rw [← this]
    exact hs
  · rw [if_neg hs] at h2
    exact absurd h2 (by simp)

/-- `find_paths` always succeeds: the run reaches a final state, the
caller's graph is intact in it, the definedness invariant holds, and the
returned result is built from the final working graphs. -/
theorem find_paths_run (alg : FloydWarshall F) (g : Graph N F) :
    ∃ st, loopK alg g.nodes (initState g) = some st ∧ PathNextInv st ∧
      st.graph = g ∧
      find_paths alg g = some (FloydWarshallResult.new st.path st.next) := by
  obtain ⟨st, h, hinv⟩ := loopK_total alg g.nodes (initState g) (initState_inv g)
  refine ⟨st, h, hinv, ?_, ?_⟩
  · exact loopK_graph_eq alg g.nodes (initState g) st h
  · unfold find_paths
    rw [h]
    rfl

end FloydWarshall

/-! ### The claims -/

open FloydWarshall

/-- **C2**: in a relaxation step whose triple is not discarded and whose
two operands are present: if `path[i][j]` is absent the candidate is
accepted unconditionally, setting `path[i][j] = op(path[i][k],
path[k][j])` and `next[i][j] = next[i][k]` and touching no other pair; if
`path[i][j]` is present, exactly the same updates are performed when
`cmp(candidate, path[i][j])` holds, and otherwise the state is returned
unchanged. -/
theorem claim_C2 {N F : Type} [LinearOrder N] (alg : FloydWarshall F)
    (st : FWState N F) (k i j : N) (w1 w2 : F) (d : N)
    (hguard : (alg.discard_loops && !(unique [k, i, j])) = false)
    (h1 : st.path.edge_weight i k = some w1)
    (h2 : st.path.edge_weight k j = some w2)
    (hd : st.next.edge_weight i k = some d) :
    (st.path.edge_weight i j = none →
      ∃ st2, relax alg st k i j = some st2 ∧ st2.graph = st.graph ∧
        (∀ a b, st2.path.edge_weight a b =
          if a = i ∧ b = j then some (alg.op w1 w2) else st.path.edge_weight a b) ∧
        (∀ a b, st2.next.edge_weight a b =
          if a = i ∧ b = j then some d else st.next.edge_weight a b)) ∧
    (∀ old, st.path.edge_weight i j = some old →
      (alg.cmp (alg.op w1 w2) old = true →
        ∃ st2, relax alg st k i j = some st2 ∧ st2.graph = st.graph ∧
          (∀ a b, st2.path.edge_weight a b =
            if a = i ∧ b = j then some (alg.op w1 w2) else st.path.edge_weight a b) ∧
          (∀ a b, st2.next.edge_weight a b =
            if a = i ∧ b = j then some d else st.next.edge_weight a b)) ∧
      (alg.cmp (alg.op w1 w2) old = false → relax alg st k i j = some st)) := by
  constructor
  · intro hij
    refine ⟨{ st with path := st.path.add_edge i j (alg.op w1 w2)
                      next := st.next.add_edge i j d }, ?_, rfl, ?_, ?_⟩
    · simp [relax, hguard, h1, h2, hij, hd]
    · intro a b
      exact Graph.edge_weight_add_edge st.path i j a b (alg.op w1 w2)
    · intro a b
      exact Graph.edge_weight_add_edge st.next i j a b d
  · intro old hij
    constructor
    · intro hc
      refine ⟨{ st with path := st.path.add_edge i j (alg.op w1 w2)
                        next := st.next.add_edge i j d }, ?_, rfl, ?_, ?_⟩
      · simp [relax, hguard, h1, h2, hij, hd, hc]
      · intro a b
        exact Graph.edge_weight_add_edge st.path i j a b (alg.op w1 w2)
      · intro a b
        exact Graph.edge_weight_add_edge st.next i j a b d
    · intro hc
      simp [relax, hguard, h1, h2, hij, hc]

/-- Witness for C2: relaxing `(0, 2)` of `gSample` through `1` replaces
the direct weight 5 by `op(1, 1) = 2` and records the first hop `1`. -/
theorem claim_C2_witness :
    relax (new : FloydWarshall ℕ) (initState gSample) 1 0 2 = some stC5 ∧
    stC5.path.edge_weight 0 2 = some 2 ∧ stC5.next.edge_weight 0 2 = some 1 := by
  obtain ⟨st2, hrel, -, hp, hn⟩ :=
    ((claim_C2 (new : FloydWarshall ℕ) (initState gSample) 1 0 2 1 1 1
      (by decide) (by decide) (by decide) (by decide)).2 5 (by decide)).1 (by decide)
  have hs : st2 = stC5 := by
    have h2 : relax (new : FloydWarshall ℕ) (initState gSample) 1 0 2 = some stC5 := by decide
    exact Option.some_injective _ (hrel.symm.trans h2)
  rw [hs] at hrel hp hn
  refine ⟨hrel, ?_, ?_⟩
  · rw [hp 0 2]
    decide
  · rw [hn 0 2]
    decide

/-- **C3**: the distinctness test answers `true` exactly when the three
nodes are pairwise distinct, and with `discard_loops` set a triple that
is not pairwise distinct is skipped with both working graphs unchanged. -/
theorem claim_C3 {N F : Type} [LinearOrder N] (k i j : N) :
    (unique [k, i, j] = true ↔ k ≠ i ∧ k ≠ j ∧ i ≠ j) ∧
    (∀ (alg : FloydWarshall F) (st : FWState N F), alg.discard_loops = true →
      ¬(k ≠ i ∧ k ≠ j ∧ i ≠ j) → relax alg st k i j = some st) := by
  refine ⟨unique_triple_iff k i j, ?_⟩
  intro alg st hd hnd
  have hu : unique [k, i, j] = false := by
    rcases Bool.eq_false_or_eq_true (unique [k, i, j]) with h | h
    · exact absurd ((unique_triple_iff k i j).mp h) hnd
    · exact h
  unfold relax
  rw [hd, hu]
  rfl

/-- Witness for C3: the non-distinct triple `(0, 0, 1)` is skipped. -/
theorem claim_C3_witness :
    (unique [(0 : ℕ), 0, 1] = true ↔ (0 : ℕ) ≠ 0 ∧ (0 : ℕ) ≠ 1 ∧ (0 : ℕ) ≠ 1) ∧
    relax (new : FloydWarshall ℕ) (initState gSample) 0 0 1 =
      some (initState gSample) :=
  ⟨(claim_C3 (0 : ℕ) 0 1 (F := ℕ)).1,
    (claim_C3 (0 : ℕ) 0 1).2 (new : FloydWarshall ℕ) (initState gSample) rfl (by decide)⟩

/-- **C4**: the definedness invariant — `next[i][j]` is defined iff
`path[i][j]` is — holds at entry, is preserved by every relaxation step,
and holds of the returned result. -/
theorem claim_C4 {N F : Type} [LinearOrder N] (alg : FloydWarshall F) (g : Graph N F) :
    PathNextInv (initState g) ∧
    (∀ (st st2 : FWState N F) (k i j : N), PathNextInv st →
      relax alg st k i j = some st2 → PathNextInv st2) ∧
    (∀ r, find_paths alg g = some r →
      ∀ i j, (r.path.edge_weight i j).isSome = true ↔
        (r.next.edge_weight i j).isSome = true) := by
  refine ⟨initState_inv g,
    fun st st2 k i j hinv h => relax_pres_inv alg st k i j st2 h hinv, ?_⟩
  intro r hr i j
  obtain ⟨st, hK, hinv, hg, heq⟩ := find_paths_run alg g
  rw [hr] at heq
  have hre : r = FloydWarshallResult.new st.path st.next := by
    injection heq
  rw [hre]
  exact hinv i j

/-- Witness for C4: the invariant of the result of the run on `gSample`,
read off at the pair `(0, 2)`. -/
theorem claim_C4_witness :
    (rSample.path.edge_weight 0 2).isSome = true ↔
      (rSample.next.edge_weight 0 2).isSome = true :=
  (claim_C4 (new : FloydWarshall ℕ) gSample).2.2 rSample (by decide) 0 2

/-- **C5**: monotonic improvement — once `path[a][b]` is set, any single
relaxation step keeps it set, and when the step changes the stored value
the comparator approved the new value against the previous one. -/
theorem claim_C5 {N F : Type} [LinearOrder N] (alg : FloydWarshall F)
    (st st2 : FWState N F) (k i j a b : N) (old : F)
    (h : relax alg st k i j = some st2)
    (hold : st.path.edge_weight a b = some old) :
    ∃ v, st2.path.edge_weight a b = some v ∧ (v = old ∨ alg.cmp v old = true) :=
  relax_mono alg st k i j st2 h a b old hold

/-- Witness for C5: the step of `claim_C2_witness` replaces 5 by 2, and
the default comparator approves. -/
theorem claim_C5_witness :
    ∃ v, stC5.path.edge_weight 0 2 = some v ∧
      (v = 5 ∨ (new : FloydWarshall ℕ).cmp v 5 = true) :=
  claim_C5 (new : FloydWarshall ℕ) (initState gSample) stC5 1 0 2 0 2 5
    (by decide) (by decide)

/-- **C6**: with loop discarding on and no direct self-loop on `i`, the
result records neither a first hop nor a weight for `(i, i)`. -/
theorem claim_C6 {N F : Type} [LinearOrder N] (alg : FloydWarshall F) (g : Graph N F)
    (i : N) (hd : alg.discard_loops = true) (hno : g.edge_weight i i = none) :
    ∀ r, find_paths alg g = some r →
      r.next.edge_weight i i = none ∧ r.path.edge_weight i i = none := by
  intro r hr
  obtain ⟨st, hK, hinv, hg, heq⟩ := find_paths_run alg g
  rw [hr] at heq
  have hre : r = FloydWarshallResult.new st.path st.next := by
    injection heq
  have hinit_p : (initState g).path.edge_weight i i = none := hno
  have hinit_n : (initState g).next.edge_weight i i = none := by
    show (initNext g).edge_weight i i = none
    rw [initNext_edge_weight, hno]
    simp
  obtain ⟨hp, hn⟩ := loopK_no_loop alg g.nodes (initState g) st hd hK i hinit_p hinit_n
  rw [hre]
  exact ⟨hn, hp⟩

/-- Witness for C6: node 0 of the two-node cycle has no self-loop, and
the result of the run records nothing for `(0, 0)`. -/
theorem claim_C6_witness :
    rTwoCycle.next.edge_weight 0 0 = none ∧ rTwoCycle.path.edge_weight 0 0 = none :=
  claim_C6 (new : FloydWarshall ℕ) gTwoCycle 0 rfl (by decide) rTwoCycle (by decide)

/-- **C7**: the caller's graph is cloned into the private working `path`
graph at entry, and the machine state reached by the full run carries the
input graph unchanged — the run mutates only the working graphs. -/
theorem claim_C7 {N F : Type} [LinearOrder N] (alg : FloydWarshall F) (g : Graph N F) :
    (initState g).graph = g ∧ (initState g).path = g ∧
    ∃ st, loopK alg g.nodes (initState g) = some st ∧ st.graph = g := by
  refine ⟨rfl, rfl, ?_⟩
  obtain ⟨st, hK, -, hg, -⟩ := find_paths_run alg g
  exact ⟨st, hK, hg⟩

/-- **C8**: `find_paths` returns a result for every input graph, and on
the empty graph the result is a pair of empty graphs on which every
weight and first-hop query answers "no path". -/
theorem claim_C8 {N F : Type} [LinearOrder N] (alg : FloydWarshall F) :
    (∀ g : Graph N F, ∃ r, find_paths alg g = some r) ∧
    (∃ r, find_paths alg (Graph.mk ([] : List N) ([] : List (N × N × F))) = some r ∧
      r.path.edges = [] ∧ r.next.edges = [] ∧
      ∀ i j, r.weight i j = none ∧ r.first_hop i j = none) := by
  constructor
  · intro g
    obtain ⟨st, -, -, -, heq⟩ := find_paths_run alg g
    exact ⟨_, heq⟩
  · refine ⟨FloydWarshallResult.new (Graph.mk [] []) (Graph.mk [] []), rfl, rfl, rfl, ?_⟩
    intro i j
    exact ⟨rfl, rfl⟩

/-- **C9**: the unwraps cannot panic: a relaxation step always returns a
state as soon as a first hop for `(i, k)` is recorded whenever a weight
is, and the full `find_paths` run returns a result on every input. -/
theorem claim_C9 {N F : Type} [LinearOrder N] (alg : FloydWarshall F) :
    (∀ (st : FWState N F) (k i j : N),
      ((st.path.edge_weight i k).isSome = true →
        (st.next.edge_weight i k).isSome = true) →
      (relax alg st k i j).isSome = true) ∧
    (∀ g : Graph N F, (find_paths alg g).isSome = true) := by
  constructor
  · exact fun st k i j h => relax_total alg st k i j h
  · intro g
    obtain ⟨st, -, -, -, heq⟩ := find_paths_run alg g
    rw [heq]
    rfl

/-- Witness for C9: one concrete relaxation step of the run on `gSample`
succeeds. -/
theorem claim_C9_witness :
    (relax (new : FloydWarshall ℕ) (initState gSample) 1 0 2).isSome = true :=
  (claim_C9 (new : FloydWarshall ℕ)).1 (initState gSample) 1 0 2 (by decide)

/-- **C10**: every recorded first hop is a direct out-neighbor in the
caller's input graph: the invariant holds at entry, is preserved by every
relaxation step, and in the returned result every `next[a][b] = c` points
along an actual edge `(a, c)` of the input graph. -/
theorem claim_C10 {N F : Type} [LinearOrder N] (alg : FloydWarshall F) (g : Graph N F) :
    NextHopEdge (initState g) ∧
    (∀ (st st2 : FWState N F) (k i j : N), NextHopEdge st →
      relax alg st k i j = some st2 → NextHopEdge st2) ∧
    (∀ r, find_paths alg g = some r → ∀ a b c, r.next.edge_weight a b = some c →
      (g.edge_weight a c).isSome = true) := by
  refine ⟨initState_nextHop g,
    fun st st2 k i j hq h => relax_pres_nextHop alg st k i j st2 h hq, ?_⟩
  intro r hr a b c hc
  obtain ⟨st, hK, hinv, hgr, heq⟩ := find_paths_run alg g
  rw [hr] at heq
  have hre : r = FloydWarshallResult.new st.path st.next := by
    injection heq
  have hhop : NextHopEdge st :=
    loopK_nextHop alg g.nodes (initState g) st hK (initState_nextHop g)
  have hstep := hhop a b c (by rw [hre] at hc; exact hc)
  rw [hgr] at hstep
  exact hstep

/-- Witness for C10: in the result of the run on `gSample`, the first hop
`next[0][2] = 1` is a direct out-neighbor of 0 in `gSample`. -/
theorem claim_C10_witness : (gSample.edge_weight 0 1).isSome = true :=
  (claim_C10 (new : FloydWarshall ℕ) gSample).2.2 rSample (by decide) 0 2 1 (by decide)

/-! ### Walk lemmas -/

namespace FloydWarshall

variable {N : Type} [DecidableEq N]

theorem walk_concat {g : Graph N ℕ} {a x b : N} {p q : List N} {w1 w2 : ℕ}
    (h1 : Walk g a p x w1) :
    Walk g x q b w2 → Walk g a (p ++ x :: q) b (w1 + w2) := by
  induction h1 with
  | single h => exact fun h2 => Walk.cons h h2
  | cons h hw ih =>
    intro h2
    rw [List.cons_append, add_assoc]
    exact Walk.cons h (ih h2)

theorem walk_split {g : Graph N ℕ} :
    ∀ (l1 : List N) {a x b : N} {l2 : List N} {w : ℕ},
      Walk g a (l1 ++ x :: l2) b w →
      ∃ w1 w2, Walk g a l1 x w1 ∧ Walk g x l2 b w2 ∧ w = w1 + w2
  | [] => fun h => by
    cases h with
    | cons he hw => exact ⟨_, _, Walk.single he, hw, rfl⟩
  | y :: l1 => fun h => by
    cases h with
    | cons he hw =>
      obtain ⟨w1, w2, ha, hb, heq⟩ := walk_split l1 hw
      exact ⟨_ + w1, w2, Walk.cons he ha, hb, by rw [heq, add_assoc]⟩

theorem exists_dup_decomp {T : Type} :
    ∀ (l : List T), ¬l.Nodup → ∃ l1 x l2, l = l1 ++ x :: l2 ∧ x ∈ l2
  | [] => fun h => absurd List.nodup_nil h
  | x :: l => fun h => by
    by_cases hx : x ∈ l
    · exact ⟨[], x, l, rfl, hx⟩
    · have hl : ¬l.Nodup := by
        intro hnd
        exact h (List.nodup_cons.mpr ⟨hx, hnd⟩)
      obtain ⟨l1, y, l2, heq, hy⟩ := exists_dup_decomp l hl
      exact ⟨x :: l1, y, l2, by rw [heq, List.cons_append], hy⟩

/-- Cycle removal: from any walk between distinct endpoints a simple path
between the same endpoints can be extracted, with no larger weight and
with intermediates among those of the walk. -/
theorem walk_toSimple {g : Graph N ℕ} :
    ∀ (n : ℕ) {a b : N} {xs : List N} {w : ℕ}, xs.length ≤ n → a ≠ b →
      Walk g a xs b w →
      ∃ ys w2, Walk g a ys b w2 ∧ w2 ≤ w ∧ (∀ y ∈ ys, y ∈ xs) ∧
        (a :: (ys ++ [b])).Nodup := by
  intro n
  induction n with
  | zero =>
    intro a b xs w hlen hab hw
    have hxs : xs = [] := List.length_eq_zero.mp (Nat.le_zero.mp hlen)
    subst hxs
    refine ⟨[], w, hw, le_refl w, fun y hy => hy, ?_⟩
    simp [hab]
  | succ n ih =>
    intro a b xs w hlen hab hw
    by_cases hnd : (a :: (xs ++ [b])).Nodup
    · exact ⟨xs, w, hw, le_refl w, fun y hy => hy, hnd⟩
    · have hsplit : a ∈ xs ∨ b ∈ xs ∨ ¬xs.Nodup := by
        by_contra hc
        push_neg at hc
        obtain ⟨ha, hb, hnd2⟩ := hc
        apply hnd
        rw [List.nodup_cons]
        constructor
        · intro hmem
          rcases List.mem_append.mp hmem with h1 | h1
          · exact ha h1
          · exact hab (List.mem_singleton.mp h1)
        · rw [List.nodup_append]
          exact ⟨hnd2, List.nodup_singleton b,
            fun x hx hmem => hb (List.mem_singleton.mp hmem ▸ hx)⟩
      rcases hsplit with hmem | hmem | hmem
      · obtain ⟨l1, l2, heq⟩ := List.append_of_mem hmem
        subst heq
        obtain ⟨w1, w2, -, hw2, hweq⟩ := walk_split l1 hw
        have hlen2 : l2.length ≤ n := by
          rw [List.length_append, List.length_cons] at hlen
          omega
        obtain ⟨ys, w3, hys, hle, hsub, hnd3⟩ := ih hlen2 hab hw2
        refine ⟨ys, w3, hys, ?_, ?_, hnd3⟩
        · omega
        · intro y hy
          exact List.mem_append.mpr (Or.inr (List.mem_cons_of_mem a (hsub y hy)))
      · obtain ⟨l1, l2, heq⟩ := List.append_of_mem hmem
        subst heq
        obtain ⟨w1, w2, hw1, -, hweq⟩ := walk_split l1 hw
        have hlen2 : l1.length ≤ n := by
          rw [List.length_append, List.length_cons] at hlen
          omega
        obtain ⟨ys, w3, hys, hle, hsub, hnd3⟩ := ih hlen2 hab hw1
        refine ⟨ys, w3, hys, ?_, ?_, hnd3⟩
        · omega
        · intro y hy
          exact List.mem_append.mpr (Or.inl (hsub y hy))
      · obtain ⟨l1, x, l2, heq, hx⟩ := exists_dup_decomp xs hmem
        subst heq
        obtain ⟨m1, m2, heq2⟩ := List.append_of_mem hx
        subst heq2
        obtain ⟨w1, w2, hw1, hw2, hweq⟩ := walk_split l1 hw
        obtain ⟨u1, u2, -, hu2, hueq⟩ := walk_split m1 hw2
        have hcat := walk_concat hw1 hu2
        have hlen2 : (l1 ++ x :: m2).length ≤ n := by
          rw [List.length_append, List.length_cons, List.length_append,
            List.length_cons] at hlen
          rw [List.length_append, List.length_cons]
          omega
        obtain ⟨ys, w3, hys, hle, hsub, hnd3⟩ := ih hlen2 hab hcat
        refine ⟨ys, w3, hys, ?_, ?_, hnd3⟩
        · omega
        · intro y hy
          rcases List.mem_append.mp (hsub y hy) with h1 | h1
          · exact List.mem_append.mpr (Or.inl h1)
          · rcases List.mem_cons.mp h1 with h2 | h2
            · exact List.mem_append.mpr (Or.inr (h2 ▸ List.mem_cons_self x (m1 ++ x :: m2)))
            · exact List.mem_append.mpr
                (Or.inr (List.mem_cons_of_mem x (List.mem_append.mpr (Or.inr
                  (List.mem_cons_of_mem x h2)))))

end FloydWarshall

/-! ### Per-step lemmas for the default run -/

namespace FloydWarshall

variable {N F : Type} [LinearOrder N]

/-- A relaxation step from a state satisfying the definedness invariant
succeeds and preserves it. -/
theorem relax_some_inv (alg : FloydWarshall F) (s : FWState N F) (k i j : N)
    (hP : PathNextInv s) : ∃ s2, relax alg s k i j = some s2 ∧ PathNextInv s2 :=
  have htot := relax_total alg s k i j (fun hp => (hP i k).mp hp)
  (Option.isSome_iff_exists.mp htot).elim fun s2 h2 =>
    ⟨s2, h2, relax_pres_inv alg s k i j s2 h2 hP⟩

/-- A non-discarded step with both operands and the first hop present
writes the accepted candidate, or keeps a value the comparator prefers. -/
theorem relax_relaxes (alg : FloydWarshall F) (st : FWState N F) (k i b : N)
    (hguard : (alg.discard_loops && !(unique [k, i, b])) = false)
    (w1 w2 : F) (h1 : st.path.edge_weight i k = some w1)
    (h2 : st.path.edge_weight k b = some w2)
    (d : N) (hd : st.next.edge_weight i k = some d) :
    ∃ st2, relax alg st k i b = some st2 ∧
      ∃ v, st2.path.edge_weight i b = some v ∧
        (v = alg.op w1 w2 ∨
          ∃ old, st.path.edge_weight i b = some old ∧
            alg.cmp (alg.op w1 w2) old = false ∧ v = old) := by
  rcases hib : st.path.edge_weight i b with _ | old
  · refine ⟨{ st with path := st.path.add_edge i b (alg.op w1 w2)
                      next := st.next.add_edge i b d },
      by simp [relax, hguard, h1, h2, hib, hd], alg.op w1 w2, ?_, Or.inl rfl⟩
    show (st.path.add_edge i b (alg.op w1 w2)).edge_weight i b = _
    rw [Graph.edge_weight_add_edge, if_pos ⟨rfl, rfl⟩]
  · by_cases hc : alg.cmp (alg.op w1 w2) old = true
    · refine ⟨{ st with path := st.path.add_edge i b (alg.op w1 w2)
                        next := st.next.add_edge i b d },
        by simp [relax, hguard, h1, h2, hib, hd, hc], alg.op w1 w2, ?_, Or.inl rfl⟩
      show (st.path.add_edge i b (alg.op w1 w2)).edge_weight i b = _
      rw [Graph.edge_weight_add_edge, if_pos ⟨rfl, rfl⟩]
    · have hc2 : alg.cmp (alg.op w1 w2) old = false := by simpa using hc
      exact ⟨st, by simp [relax, hguard, h1, h2, hib, hc2], old, hib,
        Or.inr ⟨old, rfl, hc2, rfl⟩⟩

/-- Under the default configuration, a relaxation step only improves. -/
theorem relax_improves (st st2 : FWState N ℕ) (k i j : N)
    (h : relax (new : FloydWarshall ℕ) st k i j = some st2) : Improves st st2 := by
  intro a b w hw
  obtain ⟨v, hv, hvw⟩ := relax_mono (new : FloydWarshall ℕ) st k i j st2 h a b w hw
  refine ⟨v, hv, ?_⟩
  rcases hvw with h1 | h1
  · exact le_of_eq h1
  · exact le_of_lt (of_decide_eq_true h1)

theorem improves_refl (st : FWState N ℕ) : Improves st st :=
  fun _ _ w h => ⟨w, h, le_refl w⟩

theorem improves_trans (s1 s2 s3 : FWState N ℕ)
    (h1 : Improves s1 s2) (h2 : Improves s2 s3) : Improves s1 s3 := by
  intro a b w h
  obtain ⟨v, hv, hvw⟩ := h1 a b w h
  obtain ⟨u, hu, huv⟩ := h2 a b v hv
  exact ⟨u, hu, le_trans huv hvw⟩

/-- Under the default configuration, a relaxation step preserves
soundness of the recorded weights. -/
theorem relax_sound (g : Graph N ℕ) (k : N) (hk : k ∈ g.nodes)
    (st st2 : FWState N ℕ) (i j : N)
    (h : relax (new : FloydWarshall ℕ) st k i j = some st2)
    (hs : SoundPaths g st) : SoundPaths g st2 := by
  rcases relax_cases (new : FloydWarshall ℕ) st k i j with
    h1 | ⟨w1, w2, d, -, hik, hkj, -, -, h1⟩ | ⟨-, -, h1⟩
  · rw [h1] at h; rw [← Option.some_injective _ h]; exact hs
  · rw [h1] at h
    rw [← Option.some_injective _ h]
    intro a b w hab
    have hab2 :
        (st.path.add_edge i j ((new : FloydWarshall ℕ).op w1 w2)).edge_weight a b =
          some w := hab
    rw [Graph.edge_weight_add_edge] at hab2
    by_cases hij : a = i ∧ b = j
    · rw [if_pos hij] at hab2
      have hw : w = w1 + w2 := by
        injection hab2 with h2
        exact h2.symm
      obtain ⟨xs1, hxs1, hwalk1⟩ := hs i k w1 hik
      obtain ⟨xs2, hxs2, hwalk2⟩ := hs k j w2 hkj
      refine ⟨xs1 ++ k :: xs2, ?_, ?_⟩
      · intro x hx
        rcases List.mem_append.mp hx with h2 | h2
        · exact hxs1 x h2
        · rcases List.mem_cons.mp h2 with h3 | h3
          · exact h3 ▸ hk
          · exact hxs2 x h3
      · rw [hij.1, hij.2, hw]
        exact walk_concat hwalk1 hwalk2
    · rw [if_neg hij] at hab2
      exact hs a b w hab2
  · rw [h1] at h; exact absurd h (by simp)

end FloydWarshall

/-! ### The inner loops reach every pair -/

namespace FloydWarshall

variable {N : Type} [LinearOrder N]

theorem loopJ_improves (ns : List N) (k i : N) (st st2 : FWState N ℕ)
    (h : loopJ (new : FloydWarshall ℕ) ns k i st = some st2) : Improves st st2 :=
  loopJ_rel (new : FloydWarshall ℕ) ns k i Improves improves_refl improves_trans
    (fun s j s2 h2 => relax_improves s s2 k i j h2) st st2 h

theorem loopI_improves (ns : List N) (k : N) (st st2 : FWState N ℕ)
    (h : loopI (new : FloydWarshall ℕ) ns k st = some st2) : Improves st st2 :=
  loopI_rel (new : FloydWarshall ℕ) ns k Improves improves_refl improves_trans
    (fun s i j s2 h2 => relax_improves s s2 k i j h2) st st2 h

/-- After the `j` loop for fixed `k` and `i`, every admissible target `b`
carries a weight at most `path[i][k] + path[k][b]` (operand values taken
at loop entry; they are frozen during the iteration of `k`). -/
theorem loopJ_relaxes (ns : List N) (k i : N) (st : FWState N ℕ)
    (hinv : PathNextInv st) (b : N) (hb : b ∈ ns)
    (hki : k ≠ i) (hkb : k ≠ b) (hib : i ≠ b)
    (w1 w2 : ℕ) (h1 : st.path.edge_weight i k = some w1)
    (h2 : st.path.edge_weight k b = some w2) :
    ∀ st2, loopJ (new : FloydWarshall ℕ) ns k i st = some st2 →
      ∃ v, st2.path.edge_weight i b = some v ∧ v ≤ w1 + w2 := by
  intro st2 hJ
  obtain ⟨l1, l2, hns⟩ := List.append_of_mem hb
  subst hns
  unfold loopJ at hJ
  rw [List.foldlM_append] at hJ
  rcases hfold : List.foldlM (fun st j => relax (new : FloydWarshall ℕ) st k i j) st l1 with
    _ | s1
  · rw [hfold] at hJ; exact absurd hJ (by simp)
  rw [hfold] at hJ
  have hJ2 : List.foldlM (fun st j => relax (new : FloydWarshall ℕ) st k i j) s1 (b :: l2) =
      some st2 := hJ
  rw [List.foldlM_cons] at hJ2
  -- the state before the step for `b` still satisfies the invariant
  have hinv1 : PathNextInv s1 := by
    obtain ⟨s1x, hs1x, hinvx⟩ :=
      foldlM_some_pres (fun st j => relax (new : FloydWarshall ℕ) st k i j) PathNextInv l1
        (fun s a _ hP => relax_some_inv (new : FloydWarshall ℕ) s k i a hP) st hinv
    rw [hfold] at hs1x
    rw [show s1 = s1x from Option.some_injective _ hs1x]
    exact hinvx
  -- row and column `k` are frozen up to the step for `b`
  have hfrozen : (∀ a, s1.path.edge_weight a k = st.path.edge_weight a k) ∧
      (∀ c, s1.path.edge_weight k c = st.path.edge_weight k c) :=
    foldlM_some_rel (fun st j => relax (new : FloydWarshall ℕ) st k i j)
      (fun s s2 => (∀ a, s2.path.edge_weight a k = s.path.edge_weight a k) ∧
        (∀ c, s2.path.edge_weight k c = s.path.edge_weight k c))
      (fun _ => ⟨fun _ => rfl, fun _ => rfl⟩)
      (fun _ _ _ hA hB => ⟨fun a => (hB.1 a).trans (hA.1 a), fun c => (hB.2 c).trans (hA.2 c)⟩)
      l1 (fun s a s2 _ h => relax_frozen (new : FloydWarshall ℕ) s k i a s2 rfl h)
      st s1 hfold
  have h1s : s1.path.edge_weight i k = some w1 := (hfrozen.1 i).trans h1
  have h2s : s1.path.edge_weight k b = some w2 := (hfrozen.2 b).trans h2
  -- the step for `b` relaxes the pair `(i, b)`
  have hguard : ((new : FloydWarshall ℕ).discard_loops && !(unique [k, i, b])) = false := by
    have hu : unique [k, i, b] = true := (unique_triple_iff k i b).mpr ⟨hki, hkb, hib⟩
    show (true && !(unique [k, i, b])) = false
    rw [hu]
    rfl
  obtain ⟨d, hd⟩ := Option.isSome_iff_exists.mp ((hinv1 i k).mp (by rw [h1s]; rfl))
  obtain ⟨s2, hrel, v, hv, hcase⟩ :=
    relax_relaxes (new : FloydWarshall ℕ) s1 k i b hguard w1 w2 h1s h2s d hd
  rw [hrel] at hJ2
  have hJ3 : List.foldlM (fun st j => relax (new : FloydWarshall ℕ) st k i j) s2 l2 =
      some st2 := hJ2
  have hvle : v ≤ w1 + w2 := by
    rcases hcase with h3 | ⟨old, hold, hc, hveq⟩
    · exact le_of_eq h3
    · have : ¬(w1 + w2 < old) := of_decide_eq_false hc
      rw [hveq]
      omega
  -- the remaining steps only improve
  have himp : Improves s2 st2 :=
    foldlM_some_rel (fun st j => relax (new : FloydWarshall ℕ) st k i j) Improves
      improves_refl improves_trans l2
      (fun s a s3 _ h => relax_improves s s3 k i a h) s2 st2 hJ3
  obtain ⟨v2, hv2, hv2le⟩ := himp i b v hv
  exact ⟨v2, hv2, le_trans hv2le hvle⟩

/-- After the whole `i`/`j` double loop for a fixed `k`, every admissible
pair `(a, b)` carries a weight at most `path[a][k] + path[k][b]` (operand
values taken at entry of the iteration for `k`). -/
theorem loopI_relaxes (ns : List N) (k : N) (st : FWState N ℕ)
    (hinv : PathNextInv st) (a b : N) (ha : a ∈ ns) (hb : b ∈ ns)
    (hka : k ≠ a) (hkb : k ≠ b) (hab : a ≠ b)
    (w1 w2 : ℕ) (h1 : st.path.edge_weight a k = some w1)
    (h2 : st.path.edge_weight k b = some w2) :
    ∀ st2, loopI (new : FloydWarshall ℕ) ns k st = some st2 →
      ∃ v, st2.path.edge_weight a b = some v ∧ v ≤ w1 + w2 := by
  intro st2 hI
  obtain ⟨l1, l2, hns⟩ := List.append_of_mem ha
  subst hns
  unfold loopI at hI
  rw [List.foldlM_append] at hI
  rcases hfold : List.foldlM
      (fun st i => loopJ (new : FloydWarshall ℕ) (l1 ++ a :: l2) k i st) st l1 with _ | s1
  · rw [hfold] at hI; exact absurd hI (by simp)
  rw [hfold] at hI
  have hI2 : List.foldlM
      (fun st i => loopJ (new : FloydWarshall ℕ) (l1 ++ a :: l2) k i st) s1 (a :: l2) =
      some st2 := hI
  rw [List.foldlM_cons] at hI2
  have hinv1 : PathNextInv s1 := by
    obtain ⟨s1x, hs1x, hinvx⟩ :=
      foldlM_some_pres (fun st i => loopJ (new : FloydWarshall ℕ) (l1 ++ a :: l2) k i st)
        PathNextInv l1 (fun s x _ hP => loopJ_total (new : FloydWarshall ℕ) (l1 ++ a :: l2) k x s hP)
        st hinv
    rw [hfold] at hs1x
    rw [show s1 = s1x from Option.some_injective _ hs1x]
    exact hinvx
  have hfrozen : (∀ c, s1.path.edge_weight c k = st.path.edge_weight c k) ∧
      (∀ c, s1.path.edge_weight k c = st.path.edge_weight k c) :=
    foldlM_some_rel (fun st i => loopJ (new : FloydWarshall ℕ) (l1 ++ a :: l2) k i st)
      (fun s s2 => (∀ c, s2.path.edge_weight c k = s.path.edge_weight c k) ∧
        (∀ c, s2.path.edge_weight k c = s.path.edge_weight k c))
      (fun _ => ⟨fun _ => rfl, fun _ => rfl⟩)
      (fun _ _ _ hA hB => ⟨fun c => (hB.1 c).trans (hA.1 c), fun c => (hB.2 c).trans (hA.2 c)⟩)
      l1
      (fun s x s2 _ h =>
        loopJ_rel (new : FloydWarshall ℕ) (l1 ++ a :: l2) k x
          (fun s s2 => (∀ c, s2.path.edge_weight c k = s.path.edge_weight c k) ∧
            (∀ c, s2.path.edge_weight k c = s.path.edge_weight k c))
          (fun _ => ⟨fun _ => rfl, fun _ => rfl⟩)
          (fun _ _ _ hA hB =>
            ⟨fun c => (hB.1 c).trans (hA.1 c), fun c => (hB.2 c).trans (hA.2 c)⟩)
          (fun s j s2 h2 => relax_frozen (new : FloydWarshall ℕ) s k x j s2 rfl h2) s s2 h)
      st s1 hfold
  have h1s : s1.path.edge_weight a k = some w1 := (hfrozen.1 a).trans h1
  have h2s : s1.path.edge_weight k b = some w2 := (hfrozen.2 b).trans h2
  rcases hJ : loopJ (new : FloydWarshall ℕ) (l1 ++ a :: l2) k a s1 with _ | s2
  · rw [hJ] at hI2; exact absurd hI2 (by simp)
  obtain ⟨v, hv, hvle⟩ :=
    loopJ_relaxes (l1 ++ a :: l2) k a s1 hinv1 b hb
      hka hkb hab w1 w2 h1s h2s s2 hJ
  rw [hJ] at hI2
  have hI3 : List.foldlM
      (fun st i => loopJ (new : FloydWarshall ℕ) (l1 ++ a :: l2) k i st) s2 l2 =
      some st2 := hI2
  have himp : Improves s2 st2 :=
    foldlM_some_rel (fun st i => loopJ (new : FloydWarshall ℕ) (l1 ++ a :: l2) k i st)
      Improves improves_refl improves_trans l2
      (fun s x s3 _ h => loopJ_improves (l1 ++ a :: l2) k x s s3 h) s2 st2 hI3
  obtain ⟨v2, hv2, hv2le⟩ := himp a b v hv
  exact ⟨v2, hv2, le_trans hv2le hvle⟩

end FloydWarshall

/-! ### The Floyd-Warshall completeness invariant (default run) -/

namespace FloydWarshall

variable {N : Type} [LinearOrder N]

theorem loopI_sound (g : Graph N ℕ) (ns : List N) (k : N) (hk : k ∈ g.nodes)
    (st st2 : FWState N ℕ) (h : loopI (new : FloydWarshall ℕ) ns k st = some st2)
    (hs : SoundPaths g st) : SoundPaths g st2 :=
  loopI_rel (new : FloydWarshall ℕ) ns k (fun s s2 => SoundPaths g s → SoundPaths g s2)
    (fun _ h1 => h1) (fun _ _ _ h1 h2 h3 => h2 (h1 h3))
    (fun s i j s2 h2 hQ => relax_sound g k hk s s2 i j h2 hQ) st st2 h hs

/-- Processing the intermediate `k` extends the completeness invariant
from `K` to `K ++ [k]`. -/
theorem loopI_complete (g : Graph N ℕ) (k : N) (hk : k ∈ g.nodes) (st : FWState N ℕ)
    (hinv : PathNextInv st) (K : List N) (hcomp : CompletePaths g K st) :
    ∀ st2, loopI (new : FloydWarshall ℕ) g.nodes k st = some st2 →
      CompletePaths g (K ++ [k]) st2 := by
  intro st2 hI a b xs w ha hb hab hwalk hxs hnodup
  by_cases hkxs : k ∈ xs
  · obtain ⟨l1, l2, hxe⟩ := List.append_of_mem hkxs
    subst hxe
    obtain ⟨w1, w2, hw1, hw2, hweq⟩ := walk_split l1 hwalk
    have hM : (a :: ((l1 ++ k :: l2) ++ [b])) = (a :: l1) ++ (k :: (l2 ++ [b])) := by
      simp [List.append_assoc]
    rw [hM] at hnodup
    rcases List.nodup_append.mp hnodup with ⟨hnd1, hnd2, hdisj⟩
    have hak : a ≠ k := fun hak =>
      hdisj (List.mem_cons_self a l1) (hak ▸ List.mem_cons_self k (l2 ++ [b]))
    have hkl1 : k ∉ l1 := fun hkl1 =>
      hdisj (List.mem_cons_of_mem a hkl1) (List.mem_cons_self k (l2 ++ [b]))
    have hkl2b : k ∉ l2 ++ [b] := (List.nodup_cons.mp hnd2).1
    have hkb : k ≠ b := fun hkb =>
      hkl2b (List.mem_append.mpr (Or.inr (hkb ▸ List.mem_singleton_self k)))
    have hkl2 : k ∉ l2 := fun h2 => hkl2b (List.mem_append.mpr (Or.inl h2))
    have hsub1 : (a :: (l1 ++ [k])).Nodup := by
      have : (a :: (l1 ++ [k])) = (a :: l1) ++ [k] := by simp
      rw [this, List.nodup_append]
      refine ⟨hnd1, List.nodup_singleton k, ?_⟩
      intro x hx hxk
      rw [List.mem_singleton.mp hxk] at hx
      rcases List.mem_cons.mp hx with h2 | h2
      · exact hak h2.symm
      · exact hkl1 h2
    have hl1K : ∀ x ∈ l1, x ∈ K := by
      intro x hx
      rcases List.mem_append.mp (hxs x (List.mem_append.mpr (Or.inl hx))) with h2 | h2
      · exact h2
      · exact absurd (List.mem_singleton.mp h2 ▸ hx) hkl1
    have hl2K : ∀ x ∈ l2, x ∈ K := by
      intro x hx
      rcases List.mem_append.mp
          (hxs x (List.mem_append.mpr (Or.inr (List.mem_cons_of_mem k hx)))) with h2 | h2
      · exact h2
      · exact absurd (List.mem_singleton.mp h2 ▸ hx) hkl2
    obtain ⟨v1, hv1, hv1le⟩ := hcomp a k l1 w1 ha hk hak hw1 hl1K hsub1
    obtain ⟨v2, hv2, hv2le⟩ := hcomp k b l2 w2 hk hb hkb hw2 hl2K hnd2
    obtain ⟨v, hv, hvle⟩ :=
      loopI_relaxes g.nodes k st hinv a b ha hb (Ne.symm hak) hkb hab v1 v2 hv1 hv2 st2 hI
    refine ⟨v, hv, ?_⟩
    omega
  · have hxsK : ∀ x ∈ xs, x ∈ K := by
      intro x hx
      rcases List.mem_append.mp (hxs x hx) with h2 | h2
      · exact h2
      · exact absurd (List.mem_singleton.mp h2 ▸ hx) hkxs
    obtain ⟨v, hv, hvle⟩ := hcomp a b xs w ha hb hab hwalk hxsK hnodup
    obtain ⟨v2, hv2, hv2le⟩ := loopI_improves g.nodes k st st2 hI a b v hv
    exact ⟨v2, hv2, le_trans hv2le hvle⟩

/-- The outer loop establishes the completeness invariant for the whole
processed node list. -/
theorem loopK_complete (g : Graph N ℕ) :
    ∀ (ks K : List N) (st : FWState N ℕ),
      (∀ x ∈ ks, x ∈ g.nodes) → PathNextInv st → SoundPaths g st →
      CompletePaths g K st →
      ∀ st2, List.foldlM (fun st k => loopI (new : FloydWarshall ℕ) g.nodes k st) st ks =
        some st2 →
      PathNextInv st2 ∧ SoundPaths g st2 ∧ CompletePaths g (K ++ ks) st2
  | [], K, st => fun _ hinv hs hc st2 h => by
    rw [List.foldlM_nil] at h
    rw [List.append_nil]
    rw [show st2 = st from (Option.some_injective _ h).symm]
    exact ⟨hinv, hs, hc⟩
  | k :: ks, K, st => fun hks hinv hs hc st2 h => by
    rw [List.foldlM_cons] at h
    rcases hIk : loopI (new : FloydWarshall ℕ) g.nodes k st with _ | s1
    · rw [hIk] at h; exact absurd h (by simp)
    rw [hIk] at h
    have h2 : List.foldlM (fun st k => loopI (new : FloydWarshall ℕ) g.nodes k st) s1 ks =
        some st2 := h
    have hkg : k ∈ g.nodes := hks k (List.mem_cons_self k ks)
    have hinv1 : PathNextInv s1 := by
      obtain ⟨s1x, hs1x, hinvx⟩ := loopI_total (new : FloydWarshall ℕ) g.nodes k st hinv
      rw [hIk] at hs1x
      rw [show s1 = s1x from Option.some_injective _ hs1x]
      exact hinvx
    have hs1 : SoundPaths g s1 := loopI_sound g g.nodes k hkg st s1 hIk hs
    have hc1 : CompletePaths g (K ++ [k]) s1 := loopI_complete g k hkg st hinv K hc s1 hIk
    have hres := loopK_complete g ks (K ++ [k]) s1
      (fun x hx => hks x (List.mem_cons_of_mem k hx)) hinv1 hs1 hc1 st2 h2
    rw [List.append_assoc] at hres
    exact hres

theorem initState_sound (g : Graph N ℕ) : SoundPaths g (initState g) := by
  intro a b w h
  exact ⟨[], by simp, Walk.single h⟩

theorem initState_complete (g : Graph N ℕ) : CompletePaths g [] (initState g) := by
  intro a b xs w ha hb hab hwalk hxs hnodup
  have hxs0 : xs = [] := by
    cases xs with
    | nil => rfl
    | cons x xs => exact absurd (hxs x (List.mem_cons_self x xs)) (List.not_mem_nil x)
  subst hxs0
  cases hwalk with
  | single h => exact ⟨w, h, le_refl w⟩

end FloydWarshall

/-- **C1, counterexample**: the claimed optimality property fails on the
code as stated.  With the default configuration: (1) on the two-node unit
cycle the operands `path[0][1]`, `path[1][0]` are present but `path[0][0]`
is absent — the improving triple `(k, i, j) = (1, 0, 0)` remains; (2) on
a negative three-cycle over integer weights the pairwise-distinct triple
`(k, i, j) = (1, 0, 2)` still improves after completion. -/
theorem claim_C1_counterexample :
    (∃ r, find_paths (new : FloydWarshall ℕ) gTwoCycle = some r ∧
      ¬NoImprovingTriple (new : FloydWarshall ℕ) gTwoCycle r) ∧
    (∃ r, find_paths (new : FloydWarshall ℤ) gNegCycle = some r ∧
      ¬NoImprovingTriple (new : FloydWarshall ℤ) gNegCycle r) := by
  constructor
  · refine ⟨rTwoCycle, by decide, ?_⟩
    intro h
    obtain ⟨w, hw, -⟩ := h 0 (by decide) 0 (by decide) 1 (by decide) 1 1
      (by decide) (by decide)
    rw [show rTwoCycle.path.edge_weight 0 0 = none from by decide] at hw
    exact absurd hw (by simp)
  · refine ⟨rNegCycle, by decide, ?_⟩
    intro h
    obtain ⟨w, hw, hc⟩ := h 0 (by decide) 2 (by decide) 1 (by decide) (-4) (-1)
      (by decide) (by decide)
    rw [show rNegCycle.path.edge_weight 0 2 = some (-2) from by decide] at hw
    have hwv : w = -2 := by
      injection hw with h2
      exact h2.symm
    rw [hwv] at hc
    exact absurd hc (by decide)

/-- **C1, amended**: for the default configuration over nonnegative
(natural-number) weights and for pairwise-distinct nodes `i`, `j`, `k` of
the input graph, after `find_paths` completes no improving triple
remains: whenever `path[i][k]` and `path[k][j]` are present, `path[i][j]`
is present and `cmp(op(path[i][k], path[k][j]), path[i][j])` is false. -/
theorem claim_C1 {N : Type} [LinearOrder N] (g : Graph N ℕ)
    (r : FloydWarshallResult N ℕ)
    (hr : find_paths (new : FloydWarshall ℕ) g = some r) :
    ∀ i ∈ g.nodes, ∀ j ∈ g.nodes, ∀ k ∈ g.nodes, k ≠ i → k ≠ j → i ≠ j →
      ∀ w1 w2, r.path.edge_weight i k = some w1 → r.path.edge_weight k j = some w2 →
      ∃ w, r.path.edge_weight i j = some w ∧
        (new : FloydWarshall ℕ).cmp ((new : FloydWarshall ℕ).op w1 w2) w = false := by
  intro i hi j hj k hk hki hkj hij w1 w2 h1 h2
  obtain ⟨st, hK, hinv, hg, heq⟩ := find_paths_run (new : FloydWarshall ℕ) g
  rw [hr] at heq
  have hre : r = FloydWarshallResult.new st.path st.next := by injection heq
  subst hre
  have hKfold : List.foldlM (fun st k => loopI (new : FloydWarshall ℕ) g.nodes k st)
      (initState g) g.nodes = some st := hK
  obtain ⟨-, hsound, hcomp⟩ := loopK_complete g g.nodes [] (initState g)
    (fun x hx => hx) (initState_inv g) (initState_sound g) (initState_complete g) st hKfold
  have h1s : st.path.edge_weight i k = some w1 := h1
  have h2s : st.path.edge_weight k j = some w2 := h2
  obtain ⟨xs1, hxs1, hwalk1⟩ := hsound i k w1 h1s
  obtain ⟨xs2, hxs2, hwalk2⟩ := hsound k j w2 h2s
  have hcat := walk_concat hwalk1 hwalk2
  obtain ⟨ys, w3, hys, hle, hsub, hnd⟩ :=
    walk_toSimple (xs1 ++ k :: xs2).length (le_refl _) hij hcat
  have hysK : ∀ y ∈ ys, y ∈ [] ++ g.nodes := by
    intro y hy
    rcases List.mem_append.mp (hsub y hy) with hmem | hmem
    · exact hxs1 y hmem
    · rcases List.mem_cons.mp hmem with h3 | h3
      · exact h3 ▸ hk
      · exact hxs2 y h3
  obtain ⟨v, hv, hvle⟩ := hcomp i j ys w3 hi hj hij hys hysK hnd
  refine ⟨v, hv, ?_⟩
  show decide (w1 + w2 < v) = false
  exact decide_eq_false (by omega)

/-- Witness for the amended C1: on `gSample`, the operands of the triple
`(k, i, j) = (1, 0, 2)` are present in the result and the triple no
longer improves. -/
theorem claim_C1_witness :
    ∃ w, rSample.path.edge_weight 0 2 = some w ∧
      (new : FloydWarshall ℕ).cmp ((new : FloydWarshall ℕ).op 1 1) w = false :=
  claim_C1 gSample rSample (by decide) 0 (by decide) 2 (by decide) 1 (by decide)
    (by decide) (by decide) (by decide) 1 1 (by decide) (by decide)
